/-
Verification of the GrantFinder ingestion/ranking pipeline.

Shallow embedding of the Python sources:
  * app.py          — keyword_score, match_and_rank (scoring, urgency bonus, sort)
  * refresh.py      — sha16, normalize_date_str, parse_generic, merge_into_master,
                      expire_old_rows
  * refresh_supabase.py — sha16, parse_generic (inline de-dup), upsert_grants

Python strings become `String`, dicts/rows become structures, the master CSV
becomes a `MasterFile` value, clock reads (`datetime.utcnow()`, `date.today()`)
become explicit parameters, and fallible operations return `Option`.
-/
import Mathlib

namespace GrantFinder

/-! ### String helpers

`substrB pat hay` is Python's `pat in hay` on strings (substring containment;
the empty pattern is contained in everything, as in Python). -/

def hasInfixAux (pat : List Char) : List Char → Bool
  | [] => pat.isEmpty
  | c :: rest => pat.isPrefixOf (c :: rest) || hasInfixAux pat rest

def substrB (pat hay : String) : Bool :=
  hasInfixAux pat.data hay.data

/-- `str.lower()` (ASCII case mapping, which covers this pipeline's data). -/
def strToLower (s : String) : String := String.mk (s.data.map Char.toLower)

/-- `str.strip()`. -/
def strTrim (s : String) : String :=
  String.mk ((s.data.dropWhile Char.isWhitespace).reverse.dropWhile
    Char.isWhitespace).reverse

/-- `s[:n]`. -/
def strTake (s : String) (n : Nat) : String := String.mk (s.data.take n)

/-- `s.startswith(pre)`. -/
def strStartsWith (s pre : String) : Bool := pre.data.isPrefixOf s.data

/-- Python string `<=`: lexicographic by code point. -/
def charsLe : List Char → List Char → Bool
  | [], _ => true
  | _ :: _, [] => false
  | a :: as, b :: bs =>
      if a < b then true
      else if b < a then false
      else charsLe as bs

def strLeB (a b : String) : Bool := charsLe a.data b.data

/-- app.py `keyword_score(text, keywords)`: 1 per keyword of the list whose
lowercasing occurs in the lowercased text (`if not text: return 0`). -/
def keywordScore (text : String) (keywords : List String) : Nat :=
  if text = "" then 0
  else (keywords.filter (fun kw => substrB (strToLower kw) (strToLower text))).length

/-! ### Calendar arithmetic

Proleptic-Gregorian day counts, used to embed `datetime` subtraction and
date comparison. -/

structure Date where
  year : Nat
  month : Nat
  day : Nat
deriving DecidableEq, Repr

def isLeap (y : Nat) : Bool :=
  (y % 4 == 0 && y % 100 != 0) || y % 400 == 0

def daysInMonth (y m : Nat) : Nat :=
  if m = 2 then (if isLeap y then 29 else 28)
  else if m = 4 || m = 6 || m = 9 || m = 11 then 30
  else 31

/-- Days since 1970-01-01 of a (valid, year ≥ 1) civil date. -/
def daysFromCivil (d : Date) : Int :=
  let y : Int := if d.month ≤ 2 then (d.year : Int) - 1 else (d.year : Int)
  let era : Int := y / 400
  let yoe : Int := y - era * 400
  let mp : Int := ((d.month : Int) + 9) % 12
  let doy : Int := (153 * mp + 2) / 5 + (d.day : Int) - 1
  let doe : Int := yoe * 365 + yoe / 4 - yoe / 100 + doy
  era * 146097 + doe - 719468

/-- Seconds since epoch of midnight on the given date (a `datetime` with zero
time-of-day, e.g. the result of `strptime` with a date-only format). -/
def dateEpochSec (d : Date) : Int := daysFromCivil d * 86400

def digitVal (c : Char) : Nat := c.toNat - 48

/-! ### `datetime.strptime(s, "%d %b %Y")`

The compiled pattern is `(3[01]|[12]\d|0[1-9]|[1-9])\s+(jan|feb|…|dec)\s+(\d{4})`
matched case-insensitively against the whole string; the resulting triple is
then validated by the `datetime` constructor (day out of range for the month
raises, which the caller catches). -/

/-- The `%d` alternation, tried in the regex's order. -/
def parseDayTok : List Char → Option (Nat × List Char)
  | c1 :: c2 :: rest =>
      if c1 = '3' && (c2 = '0' || c2 = '1') then
        some (30 + digitVal c2, rest)
      else if (c1 = '1' || c1 = '2') && c2.isDigit then
        some (digitVal c1 * 10 + digitVal c2, rest)
      else if c1 = '0' && ('1' ≤ c2 && c2 ≤ '9') then
        some (digitVal c2, rest)
      else if '1' ≤ c1 && c1 ≤ '9' then
        some (digitVal c1, c2 :: rest)
      else none
  | [c1] => if '1' ≤ c1 && c1 ≤ '9' then some (digitVal c1, []) else none
  | [] => none

/-- `\s+`: at least one whitespace character, consumed greedily. -/
def skipWS1 : List Char → Option (List Char)
  | c :: rest => if c.isWhitespace then some (rest.dropWhile Char.isWhitespace) else none
  | [] => none

def monthAbbrevNum (w : String) : Option Nat :=
  match w with
  | "jan" => some 1 | "feb" => some 2 | "mar" => some 3 | "apr" => some 4
  | "may" => some 5 | "jun" => some 6 | "jul" => some 7 | "aug" => some 8
  | "sep" => some 9 | "oct" => some 10 | "nov" => some 11 | "dec" => some 12
  | _ => none

/-- The `%b` alternation: a three-letter month abbreviation, case-insensitive. -/
def parseMonthTok : List Char → Option (Nat × List Char)
  | c1 :: c2 :: c3 :: rest =>
      match monthAbbrevNum (String.mk [c1.toLower, c2.toLower, c3.toLower]) with
      | some m => some (m, rest)
      | none => none
  | _ => none

/-- The `%Y` group: exactly four digits. -/
def parseYear4 : List Char → Option (Nat × List Char)
  | c1 :: c2 :: c3 :: c4 :: rest =>
      if c1.isDigit && c2.isDigit && c3.isDigit && c4.isDigit then
        some (digitVal c1 * 1000 + digitVal c2 * 100 + digitVal c3 * 10 + digitVal c4, rest)
      else none
  | _ => none

/-- `datetime.strptime(s, "%d %b %Y")` returning `none` where Python raises
`ValueError` (pattern mismatch, trailing unconverted data, or an invalid
calendar date). -/
def strptimeDMY (s : String) : Option Date :=
  match parseDayTok s.data with
  | none => none
  | some (d, r1) =>
    match skipWS1 r1 with
    | none => none
    | some r2 =>
      match parseMonthTok r2 with
      | none => none
      | some (m, r3) =>
        match skipWS1 r3 with
        | none => none
        | some r4 =>
          match parseYear4 r4 with
          | some (y, []) =>
              if 1 ≤ y && d ≤ daysInMonth y m then some ⟨y, m, d⟩ else none
          | _ => none

/-! ### app.py — rows, scoring and ranking

`match_and_rank(df, council, extra_keywords)` reads the clock once per row via
`datetime.utcnow()`; the embedding passes that instant as `nowSec`
(seconds since epoch). -/

structure GRow where
  source : String
  title : String
  amount : String
  deadline : String
  category : String
  eligibility : String
  state : String
  url : String
deriving DecidableEq, Repr

structure Council where
  name : String
  state : String
  priorities : List String
deriving DecidableEq, Repr

/-- A filtered row together with its `relevance_score` column. -/
structure Scored where
  row : GRow
  relevance_score : Nat
deriving DecidableEq, Repr

/-- `" ".join([title, category, eligibility])`. -/
def rowText (r : GRow) : String :=
  r.title ++ " " ++ r.category ++ " " ++ r.eligibility

/-- `all_kws = list(set(council priorities)) + extra_keywords`; set order is
irrelevant to the score, which is a count. -/
def allKws (c : Council) (extra : List String) : List String :=
  c.priorities.dedup ++ extra

/-- The deadline-urgency bonus: `strptime(deadline, "%d %b %Y")`, then
`days_left = (dt - utcnow()).days` (`timedelta.days` floors), banded
0–14 → 2, 15–30 → 1, else 0; a `ValueError` from `strptime` is caught and
yields 0. -/
def urgentBonus (nowSec : Int) (deadlineTxt : String) : Nat :=
  match strptimeDMY deadlineTxt with
  | none => 0
  | some dt =>
      let daysLeft : Int := Int.fdiv (dateEpochSec dt - nowSec) 86400
      if 0 ≤ daysLeft ∧ daysLeft ≤ 14 then 2
      else if 15 ≤ daysLeft ∧ daysLeft ≤ 30 then 1
      else 0

def rowScore (nowSec : Int) (kws : List String) (r : GRow) : Nat :=
  keywordScore (rowText r) kws + urgentBonus nowSec r.deadline

/-- The comparison key of
`sort_values(["relevance_score", "deadline"], ascending=[False, True])`:
score descending first, then the raw deadline string ascending
(Python string comparison, i.e. lexicographic by code point). -/
def rankLE (a b : Scored) : Prop :=
  b.relevance_score < a.relevance_score ∨
    (a.relevance_score = b.relevance_score ∧
      strLeB a.row.deadline b.row.deadline = true)

instance : DecidableRel rankLE := fun a b =>
  inferInstanceAs (Decidable (b.relevance_score < a.relevance_score ∨
    (a.relevance_score = b.relevance_score ∧
      strLeB a.row.deadline b.row.deadline = true)))

theorem charsLe_total : ∀ a b, charsLe a b || charsLe b a := by
  intro a
  induction a with
  | nil => intro b; simp [charsLe]
  | cons x xs ih =>
    intro b
    cases b with
    | nil => simp [charsLe]
    | cons y ys =>
      rcases lt_trichotomy x y with h | h | h
      · simp [charsLe, h]
      · subst h
        simpa [charsLe, lt_irrefl] using ih ys
      · simp [charsLe, h, asymm h]

theorem charsLe_trans :
    ∀ {a b c}, charsLe a b = true → charsLe b c = true → charsLe a c = true := by
  intro a
  induction a with
  | nil => intro b c _ _; simp [charsLe]
  | cons x xs ih =>
    intro b c hab hbc
    cases b with
    | nil => simp [charsLe] at hab
    | cons y ys =>
      cases c with
      | nil => simp [charsLe] at hbc
      | cons z zs =>
        rcases lt_trichotomy x y with h1 | h1 | h1
        · rcases lt_trichotomy y z with h2 | h2 | h2
          · simp [charsLe, h1.trans h2]
          · subst h2; simp [charsLe, h1]
          · simp [charsLe, h2, asymm h2] at hbc
        · subst h1
          rcases lt_trichotomy x z with h2 | h2 | h2
          · simp [charsLe, h2]
          · subst h2
            simp only [charsLe, lt_irrefl, if_neg (lt_irrefl x), if_false] at hab hbc ⊢
            exact ih hab hbc
          · simp [charsLe, h2, asymm h2] at hbc
        · simp [charsLe, h1, asymm h1] at hab

instance : IsTotal Scored rankLE where
  total a b := by
    unfold rankLE
    rcases Nat.lt_trichotomy a.relevance_score b.relevance_score with h | h | h
    · exact Or.inr (Or.inl h)
    · have htot := charsLe_total a.row.deadline.data b.row.deadline.data
      simp only [Bool.or_eq_true] at htot
      rcases htot with h' | h'
      · exact Or.inl (Or.inr ⟨h, h'⟩)
      · exact Or.inr (Or.inr ⟨h.symm, h'⟩)
    · exact Or.inl (Or.inl h)

instance : IsTrans Scored rankLE where
  trans a b c hab hbc := by
    unfold rankLE at *
    rcases hab with h1 | ⟨e1, d1⟩
    · rcases hbc with h2 | ⟨e2, _⟩
      · exact Or.inl (h2.trans h1)
      · exact Or.inl (e2 ▸ h1)
    · rcases hbc with h2 | ⟨e2, d2⟩
      · exact Or.inl (e1 ▸ h2)
      · exact Or.inr ⟨e1.trans e2, charsLe_trans d1 d2⟩

/-- `match_and_rank`: filter by state (`council.state` or `"AU"`), score each
row, sort by the key above.  `sort_values` is modelled as a comparison sort on
that key; pandas' (deterministic) quicksort and this sort agree wherever the
full keys are pairwise distinct, and every property proved below depends only
on the key ordering. -/
def matchAndRank (nowSec : Int) (df : List GRow) (c : Council)
    (extra : List String) : List Scored :=
  let filtered := df.filter (fun r => r.state == c.state || r.state == "AU")
  let kws := allKws c extra
  let scored := filtered.map (fun r => ⟨r, rowScore nowSec kws r⟩)
  List.insertionSort rankLE scored

/-! Spec-side definitions for claim C3/C4, written from the spec's words, to be
compared with the code-derived ones above. -/

/-- From the spec (C3): within a score tie, deadlines compare as parsed dates
and a missing/unparseable deadline sorts last. -/
def specTieB (a b : Scored) : Bool :=
  match strptimeDMY a.row.deadline, strptimeDMY b.row.deadline with
  | some da, some db => decide (daysFromCivil da ≤ daysFromCivil db)
  | some _, none => true
  | none, none => true
  | none, some _ => false

/-- From the spec (C3): the required pairwise order on `rank()` output. -/
def specPairOK (a b : Scored) : Prop :=
  b.relevance_score < a.relevance_score ∨
    (a.relevance_score = b.relevance_score ∧ specTieB a b = true)

instance : DecidableRel specPairOK := fun a b =>
  inferInstanceAs (Decidable (b.relevance_score < a.relevance_score ∨
    (a.relevance_score = b.relevance_score ∧ specTieB a b = true)))

/-- From the spec (C4): the base score as the number of distinct keywords in
the union of priorities and extra keywords that match the blob. -/
def distinctUnionScore (r : GRow) (prios extras : List String) : Nat :=
  ((prios ++ extras).dedup.filter
    (fun kw => substrB (strToLower kw) (strToLower (rowText r)))).length

/-! ### Normalizer — `dateutil.parser.parse(str(s), dayfirst=True, fuzzy=True)`

The date parser itself is the external `dateutil` library, not code of this
repository; only the wrapper `normalize_date_str` is.  The parse call is
modelled from the spec (§4.5): permissive parsing that tolerates surrounding
prose (fuzzy extraction of a date substring), prefers day-before-month for
ambiguous all-numeric dates, and fails to absence. -/

inductive DTok
  | num (val : Nat) (len : Nat)
  | word (w : String)
deriving DecidableEq, Repr

def natOfDigitsRev (ds : List Char) : Nat :=
  (ds.reverse).foldl (fun a c => a * 10 + digitVal c) 0

/-- Flush the run of characters accumulated so far into a token.  The run is
kept reversed; `true` marks a digit run. -/
def dtokFlush : Option (Bool × List Char) → List DTok
  | Option.none => []
  | some (true, run) => [.num (natOfDigitsRev run) run.length]
  | some (false, run) => [.word (String.mk ((run.reverse).map Char.toLower))]

/-- Split into maximal runs of digits and of letters, dropping separators. -/
def dtokAux : List Char → Option (Bool × List Char) → List DTok
  | [], cur => dtokFlush cur
  | c :: rest, cur =>
    if c.isDigit then
      match cur with
      | some (true, run) => dtokAux rest (some (true, c :: run))
      | _ => dtokFlush cur ++ dtokAux rest (some (true, [c]))
    else if c.isAlpha then
      match cur with
      | some (false, run) => dtokAux rest (some (false, c :: run))
      | _ => dtokFlush cur ++ dtokAux rest (some (false, [c]))
    else
      dtokFlush cur ++ dtokAux rest Option.none

def dtokenize (s : String) : List DTok := dtokAux s.data Option.none

/-- Month names and their three-letter abbreviations (dateutil accepts both). -/
def monthNameNum (w : String) : Option Nat :=
  match monthAbbrevNum w with
  | some m => some m
  | none =>
    match w with
    | "january" => some 1 | "february" => some 2 | "march" => some 3
    | "april" => some 4 | "june" => some 6 | "july" => some 7
    | "august" => some 8 | "september" => some 9 | "october" => some 10
    | "november" => some 11 | "december" => some 12
    | _ => none

def validYMD (y m d : Nat) : Bool :=
  1 ≤ y && y ≤ 9999 && 1 ≤ m && m ≤ 12 && 1 ≤ d && d ≤ daysInMonth y m

/-- Modelled from the spec: a date-shaped window at the head of the token
stream — `yyyy mm dd` (ISO-style), `d monthname yyyy`, `monthname d yyyy`, or
all-numeric `d m yyyy` read day-first — validated as a calendar date. -/
def tryDateAt : List DTok → Option Date
  | .num y 4 :: .num m lm :: .num d ld :: _ =>
      if lm ≤ 2 && ld ≤ 2 && validYMD y m d then some ⟨y, m, d⟩ else none
  | .num d ld :: .word w :: .num y 4 :: _ =>
      (match monthNameNum w with
       | some m => if ld ≤ 2 && validYMD y m d then some ⟨y, m, d⟩ else none
       | none => none)
  | .word w :: .num d ld :: .num y 4 :: _ =>
      (match monthNameNum w with
       | some m => if ld ≤ 2 && validYMD y m d then some ⟨y, m, d⟩ else none
       | none => none)
  | .num d ld :: .num m lm :: .num y 4 :: _ =>
      if ld ≤ 2 && lm ≤ 2 && validYMD y m d then some ⟨y, m, d⟩ else none
  | _ => none

/-- Modelled from the spec: scan the token stream left to right and return
the first date-shaped window.  No window ⇒ no date (absence, never an
error). -/
def fuzzyFindDate : List DTok → Option Date
  | [] => none
  | t :: rest =>
      match tryDateAt (t :: rest) with
      | some d => some d
      | none => fuzzyFindDate rest

def pad2 (n : Nat) : String :=
  if n < 10 then "0" ++ toString n else toString n

def pad4 (n : Nat) : String :=
  if n < 10 then "000" ++ toString n
  else if n < 100 then "00" ++ toString n
  else if n < 1000 then "0" ++ toString n
  else toString n

/-- `date.isoformat()`. -/
def isoOfDate (d : Date) : String :=
  pad4 d.year ++ "-" ++ pad2 d.month ++ "-" ++ pad2 d.day

/-- refresh.py / refresh_supabase.py `normalize_date_str(s)`: empty or
blank input ⇒ `None`; otherwise the fuzzy day-first parse, with any parse
failure caught and turned into `None`. -/
def normalizeDateStr (s : String) : Option String :=
  if strTrim s = "" then none
  else (fuzzyFindDate (dtokenize s)).map isoOfDate

/-- `pd.to_datetime(x, errors="coerce")` on an optional ISO `yyyy-mm-dd`
string (the shape `normalize_date_str` produces): parse it back to a date,
`NaT` (`none`) on `None` or anything unparseable. -/
def toDatetimeIso (s : String) : Option Date :=
  match s.data with
  | [y1, y2, y3, y4, '-', m1, m2, '-', d1, d2] =>
      if y1.isDigit && y2.isDigit && y3.isDigit && y4.isDigit &&
         m1.isDigit && m2.isDigit && d1.isDigit && d2.isDigit then
        let y := digitVal y1 * 1000 + digitVal y2 * 100 + digitVal y3 * 10 + digitVal y4
        let m := digitVal m1 * 10 + digitVal m2
        let d := digitVal d1 * 10 + digitVal d2
        if validYMD y m d then some ⟨y, m, d⟩ else none
      else none
  | _ => none

/-! ### `sha16` — `hashlib.sha256(text.encode("utf-8")).hexdigest()[:16]`

SHA-256 over the UTF-8 bytes of the input, on 32-bit words represented as
`Nat` reduced mod `2^32`. -/

def utf8Bytes (c : Char) : List Nat :=
  let n := c.toNat
  if n < 128 then [n]
  else if n < 2048 then [192 + (n >>> 6), 128 + (n % 64)]
  else if n < 65536 then [224 + (n >>> 12), 128 + ((n >>> 6) % 64), 128 + (n % 64)]
  else [240 + (n >>> 18), 128 + ((n >>> 12) % 64), 128 + ((n >>> 6) % 64), 128 + (n % 64)]

def strUtf8 (s : String) : List Nat :=
  s.data.foldr (fun c acc => utf8Bytes c ++ acc) []

def M32 : Nat := 4294967296

def rotr32 (n x : Nat) : Nat := ((x >>> n) ||| (x <<< (32 - n))) % M32

def shaCh (x y z : Nat) : Nat := ((x &&& y) ^^^ ((x ^^^ 4294967295) &&& z)) % M32

def shaMaj (x y z : Nat) : Nat := ((x &&& y) ^^^ (x &&& z) ^^^ (y &&& z)) % M32

def bigSigma0 (x : Nat) : Nat := (rotr32 2 x ^^^ rotr32 13 x ^^^ rotr32 22 x) % M32

def bigSigma1 (x : Nat) : Nat := (rotr32 6 x ^^^ rotr32 11 x ^^^ rotr32 25 x) % M32

def smallSigma0 (x : Nat) : Nat := (rotr32 7 x ^^^ rotr32 18 x ^^^ (x >>> 3)) % M32

def smallSigma1 (x : Nat) : Nat := (rotr32 17 x ^^^ rotr32 19 x ^^^ (x >>> 10)) % M32

/-- The 64 SHA-256 round constants, written in decimal. -/
def shaK : List Nat :=
  [1116352408, 1899447441, 3049323471, 3921009573, 961987163,
   1508970993, 2453635748, 2870763221, 3624381080, 310598401,
   607225278, 1426881987, 1925078388, 2162078206, 2614888103,
   3248222580, 3835390401, 4022224774, 264347078, 604807628,
   770255983, 1249150122, 1555081692, 1996064986, 2554220882,
   2821834349, 2952996808, 3210313671, 3336571891, 3584528711,
   113926993, 338241895, 666307205, 773529912, 1294757372,
   1396182291, 1695183700, 1986661051, 2177026350, 2456956037,
   2730485921, 2820302411, 3259730800, 3345764771, 3516065817,
   3600352804, 4094571909, 275423344, 430227734, 506948616,
   659060556, 883997877, 958139571, 1322822218, 1537002063,
   1747873779, 1955562222, 2024104815, 2227730452, 2361852424,
   2428436474, 2756734187, 3204031479, 3329325298]

/-- The eight SHA-256 initial hash words, written in decimal. -/
def shaH0 : List Nat :=
  [1779033703, 3144134277, 1013904242, 2773480762,
   1359893119, 2600822924, 528734635, 1541459225]

/-- Pad to 56 mod 64 with `0x80` then zeros, and append the bit length as
eight big-endian bytes. -/
def sha256Pad (msg : List Nat) : List Nat :=
  let L := msg.length
  let k := (119 - L % 64) % 64
  let bits := 8 * L
  msg ++ [128] ++ List.replicate k 0 ++
    [bits >>> 56 % 256, bits >>> 48 % 256, bits >>> 40 % 256, bits >>> 32 % 256,
     bits >>> 24 % 256, bits >>> 16 % 256, bits >>> 8 % 256, bits % 256]

def bytesToWords : List Nat → List Nat
  | b1 :: b2 :: b3 :: b4 :: rest =>
      (((b1 * 256 + b2) * 256 + b3) * 256 + b4) :: bytesToWords rest
  | _ => []

/-- Extend 16 message words to the 64-entry schedule. -/
def shaExtend (w : List Nat) : List Nat :=
  (List.range 48).foldl (fun w i =>
    w ++ [(smallSigma1 (w.getD (i + 14) 0) + w.getD (i + 9) 0 +
           smallSigma0 (w.getD (i + 1) 0) + w.getD i 0) % M32]) w

/-- One compression round over the state `[a,b,c,d,e,f,g,h]`. -/
def shaRound (w : List Nat) (st : List Nat) (i : Nat) : List Nat :=
  match st with
  | [a, b, c, d, e, f, g, h] =>
      let t1 := (h + bigSigma1 e + shaCh e f g + shaK.getD i 0 + w.getD i 0) % M32
      let t2 := (bigSigma0 a + shaMaj a b c) % M32
      [(t1 + t2) % M32, a, b, c, (d + t1) % M32, e, f, g]
  | st => st

def shaCompress (h : List Nat) (w : List Nat) : List Nat :=
  let f := (List.range 64).foldl (shaRound w) h
  List.zipWith (fun x y => (x + y) % M32) h f

/-- Process `n` 64-byte blocks. -/
def shaBlocksN : Nat → List Nat → List Nat → List Nat
  | 0, h, _ => h
  | n + 1, h, bytes =>
      shaBlocksN n (shaCompress h (shaExtend (bytesToWords (bytes.take 64)))) (bytes.drop 64)

def sha256Words (msg : List Nat) : List Nat :=
  let padded := sha256Pad msg
  shaBlocksN (padded.length / 64) shaH0 padded

def hexChar (n : Nat) : Char :=
  if n < 10 then Char.ofNat (48 + n) else Char.ofNat (87 + n)

def word8Hex (w : Nat) : String :=
  String.mk ((List.range 8).map (fun i => hexChar (w >>> (28 - 4 * i) % 16)))

def sha256Hex (s : String) : String :=
  String.join ((sha256Words (strUtf8 s)).map word8Hex)

/-- refresh.py / refresh_supabase.py `sha16`. -/
def sha16 (text : String) : String := strTake (sha256Hex text) 16

/-! ### refresh.py — candidates, the master CSV, merge and expiry

A scraped candidate dict (`parse_generic` output, possibly with
`council_slug` set by the main loop), and a master row (the `MASTER_COLUMNS`
schema).  The master CSV on disk is a `MasterFile`; `datetime.utcnow()` at
merge time is the explicit `now` argument. -/

structure Cand where
  title : String
  description : String
  amount : String
  deadline : String
  link : String
  source : String
  summary : String
  council_slug : Option String
deriving DecidableEq, Repr

structure MRow where
  id : String
  title : String
  description : String
  amount : String
  deadline : String
  link : String
  source : String
  created_at : String
  summary : String
  council_slug : String
deriving DecidableEq, Repr

inductive MasterFile
  | absent
  | present (rows : List MRow)
deriving DecidableEq, Repr

/-- Result of `merge_into_master`: the returned count, the file afterwards,
and how many file writes happened on the way (`ensure_df` creating a missing
file, plus `save_master`). -/
structure MergeResult where
  added : Nat
  file : MasterFile
  writes : Nat
deriving DecidableEq, Repr

/-- `ensure_df(MASTER_CSV, MASTER_COLUMNS)`: a missing file is first written
out empty (one file write); then the file is read back.  Missing-column
filling is the identity at this typed level. -/
def ensureDf : MasterFile → MasterFile × List MRow × Nat
  | .absent => (.present [], [], 1)
  | .present rows => (.present rows, rows, 0)

def linksOf (rows : List MRow) : List String := rows.map (·.link)

/-- The item built for a surviving candidate: `r.copy()` with a fresh id from
(title, link), `created_at` stamped now, the deadline normalised (falling back
to the raw text), and `council_slug` defaulted to `"vic"`. -/
def mkItem (r : Cand) (now : String) : MRow :=
  { id := sha16 (r.title ++ "|" ++ r.link)
    title := r.title
    description := r.description
    amount := r.amount
    deadline := match normalizeDateStr r.deadline with
                | some iso => iso
                | none => r.deadline
    link := r.link
    source := r.source
    created_at := now
    summary := r.summary
    council_slug := r.council_slug.getD "vic" }

/-- The `to_add` loop body of `merge_into_master`: candidates whose link is
nonempty and not among the existing links, turned into items. -/
def mergeToAdd (existing : List String) (newRows : List Cand) (now : String) :
    List MRow :=
  newRows.filterMap (fun r =>
    if r.link = "" ∨ r.link ∈ existing then none
    else some (mkItem r now))

/-- `merge_into_master(new_rows)`. -/
def mergeIntoMaster (file : MasterFile) (newRows : List Cand) (now : String) :
    MergeResult :=
  if newRows.isEmpty then ⟨0, file, 0⟩
  else
    match ensureDf file with
    | (file1, df, w1) =>
      let toAdd := mergeToAdd (linksOf df) newRows now
      if toAdd.isEmpty then ⟨0, file1, w1⟩
      else ⟨toAdd.length, .present (df ++ toAdd), w1 + 1⟩

/-- The record set a `MasterFile` holds (a missing file holds none). -/
def storeRows : MasterFile → List MRow
  | .absent => []
  | .present rows => rows

/-- `expire_old_rows(df)`: keep rows whose fuzzy-normalised deadline is
missing/unparseable, or falls on or after today (`date.today()`, passed
explicitly).  The returned frame keeps the same rows (the helper datetime
column it drops, and the `deadline_iso` column it adds, are not part of the
row identity here). -/
def expireOldRows (rows : List MRow) (today : Date) : List MRow :=
  rows.filter (fun r =>
    match (normalizeDateStr r.deadline).bind toDatetimeIso with
    | none => true
    | some d => decide (daysFromCivil today ≤ daysFromCivil d))

/-! ### refresh.py `parse_generic` — listing extraction

The BeautifulSoup DOM is modelled as the document-order list of elements the
function touches: anchors (visible text, href), paragraphs, list items, and
anything else.  `soup.select("a")` walks the anchors in document order;
`find_next(sel)` finds the first matching element after the current one. -/

inductive HNode
  | anchor (text href : String)
  | para (text : String)
  | item (text : String)
  | other (text : String)
deriving DecidableEq, Repr

def nodeIsP : HNode → Bool
  | .para _ => true
  | _ => false

def nodeIsLi : HNode → Bool
  | .item _ => true
  | _ => false

def nodeText : HNode → String
  | .anchor t _ => t
  | .para t => t
  | .item t => t
  | .other t => t

/-- `near_text(el, sel)`: the stripped text of the first following element
matching the selector, capped at 600 characters; `""` when there is none. -/
def nearText (after : List HNode) (sel : HNode → Bool) : String :=
  match after.find? sel with
  | some n => strTake (strTrim (nodeText n)) 600
  | none => ""

/-- Modelled from the spec: `urllib.parse.urljoin` is an external library;
per §4.2 relative hrefs are resolved against `base_url` — a root-relative
path is attached to the base's scheme+authority, any other relative path to
the base's directory. -/
def splitSchemeAux : List Char → Option (List Char × List Char)
  | ':' :: '/' :: '/' :: rest => some ([], rest)
  | c :: rest => (splitSchemeAux rest).map (fun p => (c :: p.1, p.2))
  | [] => none

/-- The base URL's scheme and authority (`https://host`). -/
def urlOrigin (base : String) : String :=
  match splitSchemeAux base.data with
  | some (scheme, rest) =>
      String.mk (scheme ++ (':' :: '/' :: '/' :: rest.takeWhile (fun c => c != '/')))
  | none => base

/-- The directory part of the base URL's path, with a trailing slash. -/
def urlDir (base : String) : String :=
  match splitSchemeAux base.data with
  | some (_, rest) =>
      let path := rest.dropWhile (fun c => c != '/')
      let dir := (path.reverse.dropWhile (fun c => c != '/')).reverse
      if dir.isEmpty then "/" else String.mk dir
  | none => "/"

def urljoinModel (base href : String) : String :=
  if strStartsWith href "/" then urlOrigin base ++ href
  else urlOrigin base ++ urlDir base ++ href

def grantKeywords : List String :=
  ["grant", "fund", "funding", "program", "round", "apply"]

def kwHit (low : String) : Bool :=
  grantKeywords.any (fun k => substrB k low)

/-- One pass over the document collecting raw candidates, before the final
de-dup by link.  Each anchor sees the rest of the document for `near_text`. -/
def collectRaw (base : String) : List HNode → List Cand
  | [] => []
  | .anchor atext ahref :: rest =>
      let title := strTrim atext
      let href := strTrim ahref
      if title = "" || href = "" then collectRaw base rest
      else if !kwHit (strToLower title) &&
              (!substrB "grant" (strToLower href) && !substrB "fund" (strToLower href)) then
        collectRaw base rest
      else
        let link := if strStartsWith href "http" then href else urljoinModel base href
        let descP := nearText rest nodeIsP
        let desc := if descP = "" then nearText rest nodeIsLi else descP
        { title := title, description := desc, amount := "", deadline := "",
          link := link, source := base, summary := "", council_slug := Option.none }
          :: collectRaw base rest
  | _ :: rest => collectRaw base rest

/-- The trailing `# de-dup by link` loop: keep a record only if its link is
nonempty and unseen. -/
def dedupByLink : List Cand → List String → List Cand
  | [], _ => []
  | r :: rest, seen =>
      if r.link ≠ "" ∧ r.link ∉ seen then
        r :: dedupByLink rest (r.link :: seen)
      else dedupByLink rest seen

/-- `parse_generic(html, base_url)` on a parsed page (`html`'s DOM); the
empty-input guard corresponds to the empty page. -/
def parseGeneric (page : List HNode) (baseUrl : String) : List Cand :=
  dedupByLink (collectRaw baseUrl page) []

/-! ### refresh_supabase.py — `upsert_grants`

A Supabase table row (the columns `upsert_grants` writes) and the table as a
list of rows.  `sb.table("grants").upsert(batch, on_conflict="id")` is the
external client; modelled from the spec (§6): an upsert keyed by `id` that
replaces the row bearing that id, or inserts the record when the id is new. -/

structure SRow where
  id : String
  title : String
  description : String
  amount : String
  deadline : String
  deadline_iso : Option String
  link : String
  source : String
  created_at : String
  summary : String
  council_slug : String
deriving DecidableEq, Repr

/-- The batch item built from a candidate whose stripped link is nonempty. -/
def upsertItem (r : Cand) (slug now : String) : SRow :=
  { id := sha16 (r.title ++ "|" ++ strTrim r.link)
    title := r.title
    description := r.description
    amount := r.amount
    deadline := r.deadline
    deadline_iso := normalizeDateStr r.deadline
    link := strTrim r.link
    source := r.source
    created_at := now
    summary := r.summary
    council_slug := slug }

/-- Upsert one row by id (replace-or-insert). -/
def upsertRow (table : List SRow) (item : SRow) : List SRow :=
  if table.any (fun row => row.id == item.id) then
    table.map (fun row => if row.id == item.id then item else row)
  else table ++ [item]

/-- `upsert_grants(rows, council_slug)`: build the batch from candidates with
a nonempty stripped link, upsert it, return the batch size. -/
def upsertGrants (table : List SRow) (rows : List Cand) (slug now : String) :
    Nat × List SRow :=
  let batch := rows.filterMap (fun r =>
    if strTrim r.link = "" then none else some (upsertItem r slug now))
  (batch.length, batch.foldl upsertRow table)

/-! ## Theorems -/

theorem tryDateAt_valid : ∀ {l : List DTok} {dt : Date}, tryDateAt l = some dt →
    validYMD dt.year dt.month dt.day = true := by
  intro l dt h
  unfold tryDateAt at h
  repeat' split at h
  all_goals simp_all
  all_goals (cases h; simp_all [Bool.and_eq_true])

theorem fuzzyFindDate_valid : ∀ (l : List DTok) {dt : Date},
    fuzzyFindDate l = some dt → validYMD dt.year dt.month dt.day = true := by
  intro l
  induction l with
  | nil => intro dt h; simp [fuzzyFindDate] at h
  | cons t rest ih =>
    intro dt h
    rw [fuzzyFindDate] at h
    cases htry : tryDateAt (t :: rest) with
    | some d =>
        rw [htry] at h
        injection h with h'
        subst h'
        exact tryDateAt_valid htry
    | none =>
        rw [htry] at h
        exact ih h

theorem normalizeDateStr_shape (s : String) :
    normalizeDateStr s = none ∨
      ∃ d : Date, normalizeDateStr s = some (isoOfDate d) ∧
        validYMD d.year d.month d.day = true := by
  unfold normalizeDateStr
  split
  · exact Or.inl rfl
  · cases hf : fuzzyFindDate (dtokenize s) with
    | none => exact Or.inl (by simp [hf])
    | some d => exact Or.inr ⟨d, by simp [hf], fuzzyFindDate_valid _ hf⟩

/-- C8: the date normalizer turns "Applications close 3 March 2026" into
"2026-03-03", "TBC" into absence, reads ambiguous all-numeric dates
day-first ("03/02/2026" is 3 February 2026), and on every input either
returns absence or a well-formed ISO date — never an error. -/
theorem C8_normalizer :
    normalizeDateStr "Applications close 3 March 2026" = some "2026-03-03" ∧
    normalizeDateStr "TBC" = none ∧
    normalizeDateStr "03/02/2026" = some "2026-02-03" ∧
    ∀ s : String, normalizeDateStr s = none ∨
      ∃ d : Date, normalizeDateStr s = some (isoOfDate d) ∧
        validYMD d.year d.month d.day = true :=
  ⟨by decide, by decide, by decide, normalizeDateStr_shape⟩

/-- C9: the record id is a pure deterministic function of (title, link) —
equal titles and links give equal ids in the CSV merge's item and in the
Supabase upsert's item, regardless of scrape time, run, or tenant. -/
theorem C9_id_deterministic (r1 r2 : Cand) (now1 now2 slug1 slug2 : String)
    (ht : r1.title = r2.title) (hl : r1.link = r2.link) :
    (mkItem r1 now1).id = (mkItem r2 now2).id ∧
    (upsertItem r1 slug1 now1).id = (upsertItem r2 slug2 now2).id := by
  constructor <;> simp [mkItem, upsertItem, ht, hl]

theorem C9_id_deterministic_witness :
    (mkItem ⟨"Youth Grant", "d1", "", "", "https://x/g", "s1", "", Option.none⟩
        "2024-01-01T00:00:00Z").id
      = (mkItem ⟨"Youth Grant", "d2", "$5", "TBC", "https://x/g", "s2", "sum",
          some "wyndham"⟩ "2025-02-02T00:00:00Z").id ∧
    (upsertItem ⟨"Youth Grant", "d1", "", "", "https://x/g", "s1", "", Option.none⟩
        "vic" "2024-01-01T00:00:00Z").id
      = (upsertItem ⟨"Youth Grant", "d2", "$5", "TBC", "https://x/g", "s2", "sum",
          some "wyndham"⟩ "casey" "2025-02-02T00:00:00Z").id :=
  C9_id_deterministic _ _ _ _ _ _ rfl rfl

theorem merge_frame_aux (rows : List MRow) (cands : List Cand) (now : String)
    (h : ∀ c ∈ cands, c.link = "" ∨ c.link ∈ linksOf rows) :
    mergeIntoMaster (.present rows) cands now = ⟨0, .present rows, 0⟩ := by
  have hta : mergeToAdd (linksOf rows) cands now = [] := by
    simp only [mergeToAdd, List.filterMap_eq_nil_iff]
    intro c hc
    exact if_pos (h c hc)
  cases cands with
  | nil => rfl
  | cons c cs =>
    simp [mergeIntoMaster, ensureDf, hta]

/-- C10: with the master file already present, merging a candidate list in
which every candidate has an empty link or an already-stored link returns 0,
leaves the stored record set unchanged, and performs no file write. -/
theorem C10_merge_frame (rows : List MRow) (cands : List Cand) (now : String)
    (h : ∀ c ∈ cands, c.link = "" ∨ c.link ∈ linksOf rows) :
    mergeIntoMaster (.present rows) cands now = ⟨0, .present rows, 0⟩ :=
  merge_frame_aux rows cands now h

theorem C10_merge_frame_witness :
    mergeIntoMaster
        (.present [⟨"id1", "T", "", "", "", "https://x/g", "s", "c", "", "vic"⟩])
        [⟨"T2", "", "", "", "", "s", "", Option.none⟩,
         ⟨"T3", "", "", "", "https://x/g", "s", "", Option.none⟩]
        "2025-01-01T00:00:00Z"
      = ⟨0, .present [⟨"id1", "T", "", "", "", "https://x/g", "s", "c", "", "vic"⟩], 0⟩ :=
  C10_merge_frame _ _ _ (by decide)

theorem dedupByLink_spec (l : List Cand) :
    ∀ seen, ((dedupByLink l seen).map (fun r => r.link)).Nodup ∧
      ∀ x ∈ (dedupByLink l seen).map (fun r => r.link), x ∉ seen := by
  induction l with
  | nil => intro seen; simp [dedupByLink]
  | cons r rest ih =>
    intro seen
    rw [dedupByLink]
    split
    · next hcond =>
        obtain ⟨ihn, ihm⟩ := ih (r.link :: seen)
        refine ⟨?_, ?_⟩
        · simp only [List.map_cons, List.nodup_cons]
          exact ⟨fun hmem => (ihm _ hmem) (List.mem_cons_self _ _), ihn⟩
        · intro x hx
          rcases List.mem_cons.mp hx with hx | hx
          · subst hx; exact hcond.2
          · exact fun hs => (ihm _ hx) (List.mem_cons_of_mem _ hs)
    · next _ => exact ih seen

/-- C7: on the spec's HTML fragment the extractor yields exactly one
candidate with the resolved link, title and description the spec gives; and
on every page no two returned candidates share a resolved link. -/
theorem C7_extractor :
    parseGeneric [.anchor "Community Grant Round" "/grants/x", .para "Apply now."]
        "https://example.org"
      = [{ title := "Community Grant Round", description := "Apply now.", amount := "",
           deadline := "", link := "https://example.org/grants/x",
           source := "https://example.org", summary := "", council_slug := Option.none }] ∧
    ∀ (page : List HNode) (baseUrl : String),
      ((parseGeneric page baseUrl).map (fun r => r.link)).Nodup :=
  ⟨by decide, fun page baseUrl => (dedupByLink_spec (collectRaw baseUrl page) []).1⟩

/-- C6: expire retains exactly the records whose normalized deadline resolves
to a date on or after the as-of date, together with every record whose
deadline does not resolve (empty or unparseable); hence a strictly earlier
deadline is removed and the boundary day is kept, as in the spec's
2025-01-01 scenario. -/
theorem C6_expire :
    (∀ (rows : List MRow) (today : Date) (r : MRow),
      r ∈ expireOldRows rows today ↔
        r ∈ rows ∧ ((normalizeDateStr r.deadline).bind toDatetimeIso = none ∨
          ∃ d, (normalizeDateStr r.deadline).bind toDatetimeIso = some d ∧
               daysFromCivil today ≤ daysFromCivil d)) ∧
    expireOldRows [⟨"id1", "t", "", "", "2024-12-31", "l", "s", "c", "", "vic"⟩]
        ⟨2025, 1, 1⟩ = [] ∧
    expireOldRows [⟨"id1", "t", "", "", "2025-01-01", "l", "s", "c", "", "vic"⟩]
        ⟨2025, 1, 1⟩
      = [⟨"id1", "t", "", "", "2025-01-01", "l", "s", "c", "", "vic"⟩] := by
  refine ⟨?_, by decide, by decide⟩
  intro rows today r
  rw [expireOldRows, List.mem_filter]
  constructor
  · rintro ⟨hm, hp⟩
    refine ⟨hm, ?_⟩
    cases hb : (normalizeDateStr r.deadline).bind toDatetimeIso with
    | none => exact Or.inl rfl
    | some d =>
        rw [hb] at hp
        exact Or.inr ⟨d, rfl, of_decide_eq_true hp⟩
  · rintro ⟨hm, hd⟩
    refine ⟨hm, ?_⟩
    rcases hd with hb | ⟨d, hb, hle⟩
    · rw [hb]
    · rw [hb]
      exact decide_eq_true hle

theorem C6_expire_witness :
    (⟨"id2", "t", "", "", "TBC", "l", "s", "c", "", "vic"⟩ : MRow) ∈
      expireOldRows [⟨"id2", "t", "", "", "TBC", "l", "s", "c", "", "vic"⟩]
        ⟨2025, 1, 1⟩ :=
  (C6_expire.1 _ _ _).mpr ⟨by decide, Or.inl (by decide)⟩

/-- C4 (amended): the base relevance score counts one per matching keyword
of the deduplicated priorities plus one per matching entry of the
extra-keyword list (with multiplicity); the spec's scenario record scores
exactly 1. -/
theorem C4_base_score :
    (∀ (r : GRow) (c : Council) (extras : List String),
      keywordScore (rowText r) (allKws c extras) =
        (c.priorities.dedup.filter
          (fun kw => substrB (strToLower kw) (strToLower (rowText r)))).length +
        (extras.filter
          (fun kw => substrB (strToLower kw) (strToLower (rowText r)))).length) ∧
    keywordScore
        (rowText ⟨"VIC Grants Gateway", "Community Youth Engagement Grant", "$250,000",
          "", "", "youth engagement", "VIC", "u"⟩)
        (allKws ⟨"Wyndham City Council", "VIC", ["youth", "waste", "roads"]⟩ []) = 1 := by
  constructor
  · intro r c extras
    have hne : rowText r ≠ "" := by
      intro h
      have : (rowText r).length = 0 := by rw [h]; rfl
      rw [rowText] at this
      simp only [String.length_append] at this
      have hsp : (" " : String).length = 1 := rfl
      omega
    rw [keywordScore, if_neg hne, allKws, List.filter_append, List.length_append]
  · decide

/-- C4 counterexample: a keyword occurring in both the priorities and the
extra-keyword list is counted twice, so the base score is not the number of
distinct matching keywords in the union (2 ≠ 1). -/
theorem C4_counterexample :
    keywordScore (rowText ⟨"s", "youth", "", "", "", "", "VIC", "u"⟩)
        (allKws ⟨"W", "VIC", ["youth"]⟩ ["youth"]) = 2 ∧
    distinctUnionScore ⟨"s", "youth", "", "", "", "", "VIC", "u"⟩ ["youth"] ["youth"] = 1 ∧
    keywordScore (rowText ⟨"s", "youth", "", "", "", "", "VIC", "u"⟩)
        (allKws ⟨"W", "VIC", ["youth"]⟩ ["youth"]) ≠
      distinctUnionScore ⟨"s", "youth", "", "", "", "", "VIC", "u"⟩ ["youth"] ["youth"] := by
  refine ⟨by decide, by decide, by decide⟩

theorem mem_matchAndRank {nowSec : Int} {df : List GRow} {c : Council}
    {extra : List String} {s : Scored} :
    s ∈ matchAndRank nowSec df c extra ↔
      ∃ r, r ∈ df.filter (fun r => r.state == c.state || r.state == "AU") ∧
        s = ⟨r, rowScore nowSec (allKws c extra) r⟩ := by
  unfold matchAndRank
  rw [List.mem_insertionSort, List.mem_map]
  constructor
  · rintro ⟨r, hr, rfl⟩; exact ⟨r, hr, rfl⟩
  · rintro ⟨r, hr, rfl⟩; exact ⟨r, hr, rfl⟩

/-- C5: every ranked record's relevance score decomposes as base score plus
an urgency bonus which is exactly 2 iff its deadline parses and lies 0–14
days (inclusive, by the code's floored day difference) in the future,
exactly 1 iff it lies 15–30 days out, and exactly 0 in every other case:
both when the deadline is empty or unparseable and when it parses but falls
outside both bands. -/
theorem C5_urgency (nowSec : Int) (df : List GRow) (c : Council)
    (extra : List String) (s : Scored) (hs : s ∈ matchAndRank nowSec df c extra) :
    s.relevance_score
        = keywordScore (rowText s.row) (allKws c extra)
          + (s.relevance_score - keywordScore (rowText s.row) (allKws c extra)) ∧
    ((s.relevance_score - keywordScore (rowText s.row) (allKws c extra)) = 2 ↔
      ∃ dt, strptimeDMY s.row.deadline = some dt ∧
        0 ≤ Int.fdiv (dateEpochSec dt - nowSec) 86400 ∧
        Int.fdiv (dateEpochSec dt - nowSec) 86400 ≤ 14) ∧
    ((s.relevance_score - keywordScore (rowText s.row) (allKws c extra)) = 1 ↔
      ∃ dt, strptimeDMY s.row.deadline = some dt ∧
        15 ≤ Int.fdiv (dateEpochSec dt - nowSec) 86400 ∧
        Int.fdiv (dateEpochSec dt - nowSec) 86400 ≤ 30) ∧
    (strptimeDMY s.row.deadline = none →
      s.relevance_score - keywordScore (rowText s.row) (allKws c extra) = 0) ∧
    (∀ dt, strptimeDMY s.row.deadline = some dt →
      ¬ (0 ≤ Int.fdiv (dateEpochSec dt - nowSec) 86400 ∧
          Int.fdiv (dateEpochSec dt - nowSec) 86400 ≤ 14) →
      ¬ (15 ≤ Int.fdiv (dateEpochSec dt - nowSec) 86400 ∧
          Int.fdiv (dateEpochSec dt - nowSec) 86400 ≤ 30) →
      s.relevance_score - keywordScore (rowText s.row) (allKws c extra) = 0) := by
  obtain ⟨r, _, rfl⟩ := mem_matchAndRank.mp hs
  dsimp only
  simp only [rowScore, Nat.add_sub_cancel_left]
  refine ⟨trivial, ?_, ?_, ?_, ?_⟩
  · unfold urgentBonus
    cases hp : strptimeDMY r.deadline with
    | none =>
        simp only [hp]
        constructor
        · intro h; cases h
        · rintro ⟨dt, hdt, _⟩; cases hdt
    | some dt0 =>
        simp only [hp]
        constructor
        · intro h
          split_ifs at h with h1 h2
          · exact ⟨dt0, rfl, h1.1, h1.2⟩
          · cases h
        · rintro ⟨dt, hdt, hband⟩
          injection hdt with hdt'
          subst hdt'
          rw [if_pos ⟨hband.1, hband.2⟩]
  · unfold urgentBonus
    cases hp : strptimeDMY r.deadline with
    | none =>
        simp only [hp]
        constructor
        · intro h; cases h
        · rintro ⟨dt, hdt, _⟩; cases hdt
    | some dt0 =>
        simp only [hp]
        constructor
        · intro h
          split_ifs at h with h1 h2
          · cases h
          · exact ⟨dt0, rfl, h2.1, h2.2⟩
        · rintro ⟨dt, hdt, hband⟩
          injection hdt with hdt'
          subst hdt'
          have hn1 : ¬ (0 ≤ Int.fdiv (dateEpochSec dt0 - nowSec) 86400 ∧
              Int.fdiv (dateEpochSec dt0 - nowSec) 86400 ≤ 14) := by
            rintro ⟨_, hle⟩
            omega
          rw [if_neg hn1, if_pos ⟨hband.1, hband.2⟩]
  · intro hp
    unfold urgentBonus
    rw [hp]
  · intro dt hdt h1 h2
    unfold urgentBonus
    rw [hdt]
    dsimp only
    rw [if_neg h1, if_neg h2]

theorem C5_urgency_witness :
    ((⟨⟨"s", "B", "", "22 Oct 2025", "", "", "VIC", "u"⟩, 2⟩ : Scored).relevance_score
      - keywordScore (rowText (⟨"s", "B", "", "22 Oct 2025", "", "", "VIC", "u"⟩ : GRow))
          (allKws ⟨"W", "VIC", []⟩ [])) = 2 :=
  ((C5_urgency (dateEpochSec ⟨2025, 10, 12⟩)
      [⟨"s", "B", "", "22 Oct 2025", "", "", "VIC", "u"⟩]
      ⟨"W", "VIC", []⟩ [] _ (by decide)).2.1).mpr
    ⟨⟨2025, 10, 22⟩, by decide, by decide, by decide⟩

/-- C3 counterexample: within a score tie the code orders by the raw deadline
string, so a record with an empty (missing) deadline sorts before one with a
real deadline — the spec's "missing sorts last within a tie" fails on this
two-row input. -/
theorem C3_counterexample :
    ¬ List.Pairwise specPairOK
        (matchAndRank (daysFromCivil ⟨2026, 1, 1⟩ * 86400)
          [⟨"s", "A", "", "", "", "", "VIC", "u0"⟩,
           ⟨"s", "B", "", "14 Oct 2025", "", "", "VIC", "u1"⟩]
          ⟨"W", "VIC", []⟩ []) := by decide

/-- C3 (amended): the ranking output is totally ordered by descending
relevance score with ties broken by the raw deadline string ascending
(lexicographic by code point, so the empty string — a missing deadline —
sorts first, not last, within a tie); the order is reproducible because
ranking is a pure function of its inputs. -/
theorem C3_output_sorted (nowSec : Int) (df : List GRow) (c : Council)
    (extra : List String) :
    List.Sorted rankLE (matchAndRank nowSec df c extra) := by
  unfold matchAndRank
  exact List.sorted_insertionSort rankLE _

/-! Merge lemmas shared by the merge claims. -/

theorem mergeIntoMaster_file_eq (file : MasterFile) (c : Cand) (cs : List Cand)
    (now : String) :
    (mergeIntoMaster file (c :: cs) now).file
      = .present (storeRows file ++
          mergeToAdd (linksOf (storeRows file)) (c :: cs) now) := by
  cases file with
  | absent =>
      cases hta : mergeToAdd (linksOf (storeRows .absent)) (c :: cs) now with
      | nil =>
          simp only [storeRows, linksOf, List.map_nil] at hta
          simp [mergeIntoMaster, ensureDf, storeRows, linksOf, hta]
      | cons a as =>
          simp only [storeRows, linksOf, List.map_nil] at hta
          simp [mergeIntoMaster, ensureDf, storeRows, linksOf, hta]
  | present rows =>
      cases hta : mergeToAdd (linksOf (storeRows (.present rows))) (c :: cs) now with
      | nil =>
          simp only [storeRows] at hta
          simp [mergeIntoMaster, ensureDf, storeRows, hta]
      | cons a as =>
          simp only [storeRows] at hta
          simp [mergeIntoMaster, ensureDf, storeRows, hta]

theorem linksOf_append (a b : List MRow) : linksOf (a ++ b) = linksOf a ++ linksOf b :=
  List.map_append _ a b

theorem storeRows_present (rows : List MRow) : storeRows (.present rows) = rows := rfl

theorem mem_links_mergeToAdd {existing : List String} {cands : List Cand}
    {now : String} {c : Cand} (hc : c ∈ cands) (hne : c.link ≠ "")
    (hnm : c.link ∉ existing) :
    c.link ∈ linksOf (mergeToAdd existing cands now) := by
  unfold mergeToAdd linksOf
  rw [List.mem_map]
  refine ⟨mkItem c now, ?_, rfl⟩
  rw [List.mem_filterMap]
  exact ⟨c, hc, by rw [if_neg (by tauto)]⟩

theorem links_mergeToAdd_fresh {existing : List String} {cands : List Cand}
    {now : String} :
    ∀ a ∈ mergeToAdd existing cands now, a.link ∉ existing ∧ a.link ≠ "" := by
  intro a ha
  obtain ⟨r, _, hf⟩ := List.mem_filterMap.mp ha
  by_cases hc : r.link = "" ∨ r.link ∈ existing
  · rw [if_pos hc] at hf; cases hf
  · rw [if_neg hc] at hf
    cases hf
    push_neg at hc
    exact ⟨hc.2, hc.1⟩

theorem merge_covers (file : MasterFile) (c : Cand) (cs : List Cand) (now : String) :
    ∀ x ∈ (c :: cs), x.link = "" ∨
      x.link ∈ linksOf (storeRows (mergeIntoMaster file (c :: cs) now).file) := by
  intro x hx
  by_cases he : x.link = ""
  · exact Or.inl he
  · right
    rw [mergeIntoMaster_file_eq]
    show x.link ∈ linksOf (_ ++ _)
    unfold linksOf
    rw [List.map_append, List.mem_append]
    by_cases hm : x.link ∈ linksOf (storeRows file)
    · exact Or.inl hm
    · exact Or.inr (mem_links_mergeToAdd hx he hm)

theorem links_mergeToAdd_sublist (existing : List String) (cands : List Cand)
    (now : String) :
    List.Sublist (linksOf (mergeToAdd existing cands now))
      ((cands.filter (fun c => c.link != "")).map (fun c => c.link)) := by
  induction cands with
  | nil => simp [mergeToAdd, linksOf]
  | cons r rest ih =>
      unfold mergeToAdd linksOf at ih ⊢
      rw [List.filterMap_cons, List.filter_cons]
      by_cases hc : r.link = "" ∨ r.link ∈ existing
      · rw [if_pos hc]
        rcases hc with hc | hc
        · rw [hc]
          simpa using ih
        · by_cases he : r.link = ""
          · rw [he]; simpa using ih
          · have : (r.link != "") = true := bne_iff_ne.mpr he
            rw [this]
            simpa using List.Sublist.cons _ ih
      · push_neg at hc
        rw [if_neg (by tauto)]
        have hbe : (r.link != "") = true := bne_iff_ne.mpr hc.1
        rw [hbe]
        simp only [List.map_cons]
        exact List.Sublist.cons₂ _ ih

/-! Upsert-path lemmas for C1: the table's id column under `upsertRow`. -/

def idsOf (table : List SRow) : List String := table.map (fun r => r.id)

theorem any_id_iff_mem_idsOf (table : List SRow) (x : String) :
    table.any (fun row => row.id == x) = true ↔ x ∈ idsOf table := by
  rw [List.any_eq_true]
  constructor
  · rintro ⟨row, hrow, hbeq⟩
    exact List.mem_map.mpr ⟨row, hrow, beq_iff_eq.mp hbeq⟩
  · rintro hx
    obtain ⟨row, hrow, hid⟩ := List.mem_map.mp hx
    exact ⟨row, hrow, beq_iff_eq.mpr hid⟩

theorem idsOf_upsertRow (table : List SRow) (item : SRow) :
    idsOf (upsertRow table item)
      = if item.id ∈ idsOf table then idsOf table else idsOf table ++ [item.id] := by
  unfold upsertRow
  by_cases h : item.id ∈ idsOf table
  · rw [if_pos ((any_id_iff_mem_idsOf table item.id).mpr h), if_pos h]
    unfold idsOf
    rw [List.map_map]
    apply List.map_congr_left
    intro row _
    show (if row.id == item.id then item else row).id = row.id
    by_cases hb : (row.id == item.id) = true
    · rw [if_pos hb]
      exact (beq_iff_eq.mp hb).symm
    · rw [if_neg hb]
  · rw [if_neg (fun hc => h ((any_id_iff_mem_idsOf table item.id).mp hc)), if_neg h]
    unfold idsOf
    rw [List.map_append]
    rfl

theorem mem_idsOf_upsertRow {table : List SRow} {item : SRow} {x : String}
    (hx : x ∈ idsOf table) : x ∈ idsOf (upsertRow table item) := by
  rw [idsOf_upsertRow]
  split
  · exact hx
  · exact List.mem_append_left _ hx

theorem self_mem_idsOf_upsertRow (table : List SRow) (item : SRow) :
    item.id ∈ idsOf (upsertRow table item) := by
  rw [idsOf_upsertRow]
  split
  · next h => exact h
  · exact List.mem_append_right _ (List.mem_singleton_self _)

theorem mem_idsOf_foldl (batch : List SRow) :
    ∀ (table : List SRow) (x : String), x ∈ idsOf table →
      x ∈ idsOf (batch.foldl upsertRow table) := by
  induction batch with
  | nil => intro table x hx; exact hx
  | cons b bs ih =>
      intro table x hx
      exact ih _ _ (mem_idsOf_upsertRow hx)

theorem batch_ids_mem_foldl (batch : List SRow) :
    ∀ (table : List SRow), ∀ item ∈ batch,
      item.id ∈ idsOf (batch.foldl upsertRow table) := by
  induction batch with
  | nil => intro table item him; cases him
  | cons b bs ih =>
      intro table item him
      rcases List.mem_cons.mp him with rfl | him
      · exact mem_idsOf_foldl bs _ _ (self_mem_idsOf_upsertRow table item)
      · exact ih _ item him

theorem length_foldl_upsert_of_mem (batch : List SRow) :
    ∀ (table : List SRow), (∀ item ∈ batch, item.id ∈ idsOf table) →
      (batch.foldl upsertRow table).length = table.length := by
  induction batch with
  | nil => intro table _; rfl
  | cons b bs ih =>
      intro table h
      have hb : b.id ∈ idsOf table := h b (List.mem_cons_self _ _)
      have hids : idsOf (upsertRow table b) = idsOf table := by
        rw [idsOf_upsertRow, if_pos hb]
      have hlen : (upsertRow table b).length = table.length := by
        have hl := congrArg List.length hids
        simpa [idsOf, List.length_map] using hl
      calc (List.foldl upsertRow table (b :: bs)).length
          = (bs.foldl upsertRow (upsertRow table b)).length := rfl
        _ = (upsertRow table b).length :=
            ih _ (fun item him => hids.symm ▸ h item (List.mem_cons_of_mem _ him))
        _ = table.length := hlen

theorem upsertGrants_count_idem (table : List SRow) (cands : List Cand)
    (slug1 slug2 now1 now2 : String) :
    (upsertGrants (upsertGrants table cands slug1 now1).2 cands slug2 now2).2.length
      = (upsertGrants table cands slug1 now1).2.length := by
  unfold upsertGrants
  dsimp only
  apply length_foldl_upsert_of_mem
  intro item him
  obtain ⟨r, hr, hf⟩ := List.mem_filterMap.mp him
  by_cases hc : strTrim r.link = ""
  · rw [if_pos hc] at hf; cases hf
  · rw [if_neg hc] at hf
    cases hf
    show (upsertItem r slug2 now2).id ∈ _
    have hid : (upsertItem r slug2 now2).id = (upsertItem r slug1 now1).id := rfl
    rw [hid]
    apply batch_ids_mem_foldl
    rw [List.mem_filterMap]
    exact ⟨r, hr, by rw [if_neg hc]⟩

/-- C1 (amended): for the CSV merge, (i) merging the same candidate list
twice in sequence leaves the store exactly as after the first merge; (ii) a
candidate whose link is already stored never adds another copy of that link;
(iii) provided the stored links are pairwise distinct and the candidate
list's nonempty links are pairwise distinct, the stored links stay pairwise
distinct after the merge.  For the Supabase upsert, (iv) re-ingesting the
same candidate list never changes the stored record count (its ids are
deterministic, so the second pass only replaces rows); but uniqueness on
that path is keyed by id = sha16(title|link), not by link — a re-scraped
link with a changed title is appended as a second row with the same link
(see the counterexample), so per-link uniqueness fails there. -/
theorem C1_merge :
    (∀ (file : MasterFile) (cands : List Cand) (now1 now2 : String),
      ((mergeIntoMaster (mergeIntoMaster file cands now1).file cands now2).file
          = (mergeIntoMaster file cands now1).file) ∧
      (∀ c ∈ cands, c.link ∈ linksOf (storeRows file) →
        (linksOf (storeRows (mergeIntoMaster file cands now1).file)).count c.link
          = (linksOf (storeRows file)).count c.link) ∧
      ((linksOf (storeRows file)).Nodup →
        ((cands.filter (fun c => c.link != "")).map (fun c => c.link)).Nodup →
        (linksOf (storeRows (mergeIntoMaster file cands now1).file)).Nodup)) ∧
    (∀ (table : List SRow) (cands : List Cand) (slug1 slug2 now1 now2 : String),
      (upsertGrants (upsertGrants table cands slug1 now1).2 cands slug2 now2).2.length
        = (upsertGrants table cands slug1 now1).2.length) := by
  refine ⟨?_, fun table cands s1 s2 n1 n2 => upsertGrants_count_idem table cands s1 s2 n1 n2⟩
  intro file cands now1 now2
  cases cands with
  | nil =>
      refine ⟨rfl, ?_, ?_⟩
      · intro x hx
        cases hx
      · exact fun h _ => h
  | cons c cs =>
      refine ⟨?_, ?_, ?_⟩
      · have hcov := merge_covers file c cs now1
        rw [mergeIntoMaster_file_eq file c cs now1] at hcov ⊢
        have hnoop := merge_frame_aux
          (storeRows file ++ mergeToAdd (linksOf (storeRows file)) (c :: cs) now1)
          (c :: cs) now2 (by
            intro x hx
            rcases hcov x hx with h | h
            · exact Or.inl h
            · exact Or.inr (by simpa [storeRows] using h))
        rw [hnoop]
      · intro x hx hmem
        rw [mergeIntoMaster_file_eq file c cs now1]
        simp only [storeRows_present, linksOf_append, List.count_append]
        have hz : (linksOf
            (mergeToAdd (linksOf (storeRows file)) (c :: cs) now1)).count x.link = 0 := by
          rw [List.count_eq_zero]
          intro hin
          obtain ⟨a, ha, hlk⟩ := List.mem_map.mp hin
          exact (links_mergeToAdd_fresh a ha).1 (hlk ▸ hmem)
        rw [hz, Nat.add_zero]
      · intro hstore hcands
        rw [mergeIntoMaster_file_eq file c cs now1]
        simp only [storeRows_present, linksOf_append, List.nodup_append]
        refine ⟨hstore, ?_, ?_⟩
        · exact ((links_mergeToAdd_sublist
            (linksOf (storeRows file)) (c :: cs) now1).nodup hcands)
        · intro x hx1 hx2
          obtain ⟨a, ha, hlk⟩ := List.mem_map.mp hx2
          exact (links_mergeToAdd_fresh a ha).1 (hlk ▸ hx1)

theorem C1_merge_witness :
    (linksOf (storeRows (mergeIntoMaster
        (.present [⟨"id1", "T", "", "", "", "https://a/1", "s", "c", "", "vic"⟩])
        [⟨"U", "", "", "", "https://b/2", "s", "", Option.none⟩]
        "2025-01-01T00:00:00Z").file)).Nodup :=
  (C1_merge.1 (.present [⟨"id1", "T", "", "", "", "https://a/1", "s", "c", "", "vic"⟩])
      [⟨"U", "", "", "", "https://b/2", "s", "", Option.none⟩]
      "2025-01-01T00:00:00Z" "2025-01-02T00:00:00Z").2.2 (by decide) (by decide)

set_option maxRecDepth 8000 in
/-- C1 counterexample: on the CSV path a single merge of a candidate list
that repeats one link appends it twice; on the Supabase path a candidate
whose link is already stored but whose title changed gets a fresh id and is
appended as a second row with the same link.  Either way a link occurs
twice, so the claimed per-link uniqueness fails as stated. -/
theorem C1_counterexample :
    ((linksOf (storeRows (mergeIntoMaster (.present [])
        [⟨"T", "", "", "", "https://x/g", "s", "", Option.none⟩,
         ⟨"T", "", "", "", "https://x/g", "s", "", Option.none⟩]
        "2025-01-01T00:00:00Z").file)).count "https://x/g" = 2) ∧
    ¬ (linksOf (storeRows (mergeIntoMaster (.present [])
        [⟨"T", "", "", "", "https://x/g", "s", "", Option.none⟩,
         ⟨"T", "", "", "", "https://x/g", "s", "", Option.none⟩]
        "2025-01-01T00:00:00Z").file)).Nodup ∧
    ((upsertGrants (upsertGrants []
        [⟨"Youth Grant", "", "", "", "https://x/g", "s", "", Option.none⟩]
        "vic" "2024-06-01T00:00:00Z").2
        [⟨"Youth Grant Round 2", "", "", "", "https://x/g", "s", "", Option.none⟩]
        "vic" "2025-06-01T00:00:00Z").2.map (fun r => r.link)
      = ["https://x/g", "https://x/g"]) ∧
    ¬ ((upsertGrants (upsertGrants []
        [⟨"Youth Grant", "", "", "", "https://x/g", "s", "", Option.none⟩]
        "vic" "2024-06-01T00:00:00Z").2
        [⟨"Youth Grant Round 2", "", "", "", "https://x/g", "s", "", Option.none⟩]
        "vic" "2025-06-01T00:00:00Z").2.map (fun r => r.link)).Nodup := by
  refine ⟨by decide, by decide, by decide, by decide⟩

/-- C2 (amended): the CSV merge is strictly additive — previously stored
rows are preserved verbatim (every field unchanged) and each appended row
has created_at stamped with the merge time, so created_at is written exactly
once, at first insertion; the Supabase upsert path instead overwrites a
re-ingested record's fields, including created_at (see the counterexample). -/
theorem C2_merge_additive (rows : List MRow) (cands : List Cand) (now : String) :
    ∃ added, storeRows (mergeIntoMaster (.present rows) cands now).file
        = rows ++ added ∧ ∀ a ∈ added, a.created_at = now := by
  cases cands with
  | nil => exact ⟨[], by simp [mergeIntoMaster, storeRows], by intro a ha; cases ha⟩
  | cons c cs =>
      refine ⟨mergeToAdd (linksOf rows) (c :: cs) now, ?_, ?_⟩
      · rw [mergeIntoMaster_file_eq]
        rfl
      · intro a ha
        obtain ⟨r, _, hf⟩ := List.mem_filterMap.mp ha
        by_cases hc : r.link = "" ∨ r.link ∈ linksOf rows
        · rw [if_pos hc] at hf; cases hf
        · rw [if_neg hc] at hf; cases hf; rfl

theorem C2_merge_additive_witness :
    ∃ added,
      storeRows (mergeIntoMaster (.present [])
          [⟨"T", "", "", "", "https://x/g", "s", "", Option.none⟩]
          "2025-01-01T00:00:00Z").file = [] ++ added ∧
      ∀ a ∈ added, a.created_at = "2025-01-01T00:00:00Z" :=
  C2_merge_additive [] [⟨"T", "", "", "", "https://x/g", "s", "", Option.none⟩]
    "2025-01-01T00:00:00Z"

set_option maxRecDepth 8000 in
/-- C2 counterexample: re-ingesting the same candidate through the Supabase
upsert keeps a single row (same id) but replaces its fields with the later
run's values — created_at moves from the first run's timestamp to the
second's, so it is not immutable on this path. -/
theorem C2_counterexample :
    ((upsertGrants []
        [⟨"Youth Grant", "", "", "", "https://x/g", "https://x", "", Option.none⟩]
        "vic" "2024-06-01T00:00:00Z").2.map (fun r => r.created_at)
      = ["2024-06-01T00:00:00Z"]) ∧
    ((upsertGrants
        (upsertGrants []
          [⟨"Youth Grant", "", "", "", "https://x/g", "https://x", "", Option.none⟩]
          "vic" "2024-06-01T00:00:00Z").2
        [⟨"Youth Grant", "", "", "", "https://x/g", "https://x", "", Option.none⟩]
        "vic" "2025-06-01T00:00:00Z").2.map (fun r => r.created_at)
      = ["2025-06-01T00:00:00Z"]) := by
  constructor <;> decide

end GrantFinder
